import Mathlib

/-!
Shallow embedding of the transform-expression engine of the
`validator_blackbox` repository: JSON-like documents, the step engine
(`src/step_engine.py`), the operator library (`src/function_pool.py`,
`src/jsonlogic_operations.py`), the path resolver, and the field-binding
precedence layer (`src/custom_basemodel.py`).
-/

/-- JSON-compatible value tree: the `Document` data model.  Scalars are
null, booleans, integers and strings; containers are ordered lists and
ordered string-keyed maps (Python `dict` preserves insertion order). -/
inductive Value where
  | null : Value
  | bool : Bool → Value
  | int : Int → Value
  | str : String → Value
  | arr : List Value → Value
  | obj : List (String × Value) → Value

/-- A document handed to the engine: the raw payload dict. -/
abbrev Doc := List (String × Value)

/-- Python single-quote character, used by `repr` of strings. -/
def pySq : String := String.singleton (Char.ofNat 39)

mutual
/-- Python `repr` of a JSON-like value (elements of lists/dicts print in
`repr` form; escaping inside strings is not modelled, no claim uses it). -/
def pyReprOf : Value → String
  | .null => "None"
  | .bool true => "True"
  | .bool false => "False"
  | .int n => toString n
  | .str s => pySq ++ s ++ pySq
  | .arr xs => "[" ++ pyReprList xs ++ "]"
  | .obj fs => "\x7b" ++ pyReprFields fs ++ "\x7d"

/-- `repr` of list elements, comma separated. -/
def pyReprList : List Value → String
  | [] => ""
  | [v] => pyReprOf v
  | v :: vs => pyReprOf v ++ ", " ++ pyReprList vs

/-- `repr` of dict entries, comma separated. -/
def pyReprFields : List (String × Value) → String
  | [] => ""
  | [(k, v)] => pySq ++ k ++ pySq ++ ": " ++ pyReprOf v
  | (k, v) :: fs => pySq ++ k ++ pySq ++ ": " ++ pyReprOf v ++ ", " ++ pyReprFields fs
end

/-- Python `str(v)`: a string is returned as itself, every other value
prints as its `repr`-based form (`str(None) = "None"`, etc.). -/
def pyStrOf : Value → String
  | .str s => s
  | v => pyReprOf v

/-- Python `str.capitalize()`: first character upper-cased, the rest
lower-cased (ASCII behaviour). -/
def pyCapitalize (s : String) : String :=
  match s.toList with
  | [] => ""
  | c :: rest => (c.toUpper :: rest.map Char.toLower).asString

/-- Clamp one slice bound the way Python indexing does: negative indices
count from the end, then the bound is clamped into `[0, n]`. -/
def pySliceClamp (n : Nat) (i : Int) : Nat :=
  if i < 0 then ((n : Int) + i).toNat else min i.toNat n

/-- Python `s[a:b]`: slice with clamping, never raising. -/
def pySlice (s : String) (a b : Int) : String :=
  let n := s.length
  let lo := pySliceClamp n a
  let hi := pySliceClamp n b
  (((s.toList).drop lo).take (hi - lo)).asString

/-- Python `d.get(k)` on an insertion-ordered dict. -/
def dget (d : List (String × Value)) (k : String) : Option Value :=
  match d with
  | [] => none
  | (k₁, v₁) :: rest => if k₁ = k then some v₁ else dget rest k

/-- Python `d[k] = v` on an insertion-ordered dict: replace in place if
the key exists, else append. -/
def dset (d : List (String × Value)) (k : String) (v : Value) :
    List (String × Value) :=
  match d with
  | [] => [(k, v)]
  | (k₁, v₁) :: rest =>
      if k₁ = k then (k, v) :: rest else (k₁, v₁) :: dset rest k v

/-- Python `table.get(k, "")` on a string→string lookup table. -/
def sget (t : List (String × String)) (k : String) : Option String :=
  match t with
  | [] => none
  | (k₁, v₁) :: rest => if k₁ = k then some v₁ else sget rest k

theorem dget_dset (d : List (String × Value)) (k : String) (v : Value)
    (q : String) :
    dget (dset d k v) q = if q = k then some v else dget d q := by
  induction d with
  | nil =>
      by_cases h : q = k
      · subst h; simp [dset, dget]
      · simp [dset, dget, h, show ¬k = q from fun h₁ => h h₁.symm]
  | cons hd tl ih =>
      obtain ⟨k₂, v₂⟩ := hd
      by_cases h₂ : k₂ = k
      · subst h₂
        by_cases h₁ : q = k₂
        · subst h₁; simp [dset, dget]
        · simp [dset, dget, h₁, show ¬k₂ = q from fun h₃ => h₁ h₃.symm]
      · by_cases h₁ : k₂ = q
        · subst h₁
          simp [dset, dget, h₂, show ¬k₂ = k from h₂]
        · simp [dset, dget, h₂, h₁, ih]

/-! ## Path resolver (`src/step_engine.py` `Path`, `jsonpath_ng` subset) -/

/-- One segment of a compiled path query: `.name` (exact child field) or
`..name` (recursive descent on a field name at any depth). -/
inductive Seg where
  | field : String → Seg
  | recur : String → Seg

/-- A compiled path query, as produced by `jsonpath_ng.parse` for the
query subset the repository uses (`$`, dotted fields, `$..name`). -/
abbrev CompiledPath := List Seg

/-- Characters allowed in a field name of a path query. -/
def isNameChar (c : Char) : Bool := c.isAlphanum || c = '_'

/-- Parse the segments after the leading `$`.  `fuel` only bounds the
recursion; it is always supplied as more than the character count, and
each step consumes at least one character. -/
def parseSegs : Nat → List Char → Except String CompiledPath
  | _, [] => .ok []
  | 0, _ => .error "parser fuel exhausted"
  | fuel + 1, '.' :: '.' :: rest =>
      let name := rest.takeWhile isNameChar
      if name.isEmpty then .error "empty field name in recursive descent"
      else do
        let segs ← parseSegs fuel (rest.dropWhile isNameChar)
        .ok (.recur name.asString :: segs)
  | fuel + 1, '.' :: rest =>
      let name := rest.takeWhile isNameChar
      if name.isEmpty then .error "empty field name"
      else do
        let segs ← parseSegs fuel (rest.dropWhile isNameChar)
        .ok (.field name.asString :: segs)
  | _ + 1, _ => .error "expected dot"

/-- `jsonpath_ng.parse` for the query subset in use: a malformed query
string is a construction-time error (`Except.error`). -/
def parsePath (s : String) : Except String CompiledPath :=
  match s.toList with
  | '$' :: rest => parseSegs (rest.length + 1) rest
  | _ => .error "query must start with dollar sign"

/-- Field access used by path matching: only dict nodes expose fields. -/
def getField (name : String) : Value → Option Value
  | .obj fs => dget fs name
  | _ => none

mutual
/-- All nodes of a value in document (pre-)order: the node itself first,
then the nodes of its children left to right. -/
def preorder : Value → List Value
  | .arr xs => .arr xs :: preorderList xs
  | .obj fs => .obj fs :: preorderFields fs
  | v => [v]

/-- Pre-order nodes of the elements of a list, in order. -/
def preorderList : List Value → List Value
  | [] => []
  | x :: xs => preorder x ++ preorderList xs

/-- Pre-order nodes of the values of a dict, in key order. -/
def preorderFields : List (String × Value) → List Value
  | [] => []
  | (_, x) :: fs => preorder x ++ preorderFields fs
end

/-- Matches of one segment against one node, in document order:
an exact field yields at most one value; recursive descent yields the
`name` child of every node of the subtree, in traversal order. -/
def findSeg : Seg → Value → List Value
  | .field n, v => (getField n v).toList
  | .recur n, v => (preorder v).filterMap (getField n)

/-- `compiled.find(blob)`: the ordered list of matched values of a
compiled query against a document root. -/
def pathFind (p : CompiledPath) (root : Value) : List Value :=
  p.foldl (fun cur seg => cur.flatMap (findSeg seg)) [root]

/-- The arity-collapsing rule of `Path._resolve` and `extract_data`:
no match → `None`; one match → the value itself; several → the list. -/
def collapseMatches (ms : List Value) : Value :=
  match ms with
  | [] => .null
  | [v] => v
  | _ => .arr ms

/-- `step_engine.Path`: holds the query string and its compiled form. -/
structure PathStep where
  pathStr : String
  compiled : CompiledPath

/-- `Path.__init__`: the query string is compiled by `parse` at
construction time, so a malformed query fails here, before any document
is supplied. -/
def PathStep.build (jsonpath : String) : Except String PathStep := do
  let compiled ← parsePath jsonpath
  .ok ⟨jsonpath, compiled⟩

/-- `Path._resolve`: find the matches and collapse by arity.  Total: no
error channel exists at evaluation time. -/
def PathStep.resolve (p : PathStep) (blob : Value) : Value :=
  collapseMatches (pathFind p.compiled blob)

/-- `expression_constructor.JSONPATH`: builds the JSONLogic rule value
`{"JSONPATH": [expr]}`; plain data, construction cannot fail. -/
def JSONPATH (jsonpathExpr : String) : Value :=
  .obj [("JSONPATH", .arr [.str jsonpathExpr])]

/-- `jsonlogic_operations.JsonPathOperator.evaluate` on a literal string
argument: the query is parsed *during evaluation*, so a malformed query
raises (models the uncaught `parse` exception) only once a document is
supplied. -/
def jsonPathOperatorEval (jsonpathExpr : String) (data : Value) :
    Except String Value := do
  let compiled ← parsePath jsonpathExpr
  .ok (collapseMatches (pathFind compiled data))

/-- `expression_constructor.extract_data`: parse and resolve with the
same arity collapsing. -/
def extract_data (data : Value) (jsonpathExpr : String) :
    Except String Value := do
  let compiled ← parsePath jsonpathExpr
  .ok (collapseMatches (pathFind compiled data))

/-! ## Step engine and operator library
(`src/step_engine.py` `Step`, `src/function_pool.py`,
`src/jsonlogic_operations.py`) -/

/-- An evaluation-time exception message (a raised Python exception). -/
abbrev EvalErr := String

/-- `step_engine.Step`: a callable `T -> U`; any call may raise, so the
embedding returns `Except`. -/
def Step (α β : Type) : Type := α → Except EvalErr β

/-- `Step.__or__`: left-to-right composition, `Step(lambda v: other(self(v)))`. -/
def Step.pipe {α β γ : Type} (self : Step α β) (other : Step β γ) :
    Step α γ :=
  fun v => self v >>= other

/-- `function_pool.CAPITALIZE`'s inner `_cap`: `None` passes through,
anything else is stringified and `.capitalize()`-d.  Never raises. -/
def capApply : Value → Value
  | .null => .null
  | v => .str (pyCapitalize (pyStrOf v))

/-- `CAPITALIZE()` (no source): the plain step over an incoming value. -/
def CAPITALIZE : Step Value Value := fun v => .ok (capApply v)

/-- `CAPITALIZE(source_step)`: the nested-call dispatch branch,
`Step(lambda blob: _cap(source(blob)))`. -/
def CAPITALIZEnested (source : Step Doc Value) : Step Doc Value :=
  fun blob => (source blob).map capApply

/-- `function_pool.SUBSTR`'s inner `_apply_substr`: `None` passes
through, anything else is stringified and sliced `s[start:start+length]`
with Python clamping.  Never raises. -/
def substrApply (start length : Int) : Value → Value
  | .null => .null
  | v => .str (pySlice (pyStrOf v) start (start + length))

/-- `SUBSTR(start, length)` (no source): the plain step. -/
def SUBSTR (start length : Int) : Step Value Value :=
  fun v => .ok (substrApply start length v)

/-- `SUBSTR(start, length, source_step)`: the nested-call dispatch
branch, `Step(lambda blob: _apply_substr(source(blob)))`. -/
def SUBSTRnested (start length : Int) (source : Step Doc Value) :
    Step Doc Value :=
  fun blob => (source blob).map (substrApply start length)

/-- `jsonlogic_operations.SubstrOperator.evaluate` on already-evaluated
arguments: same null pass-through, stringify, clamped slice. -/
def substrOperatorEval (start length : Int) (source : Value) : Value :=
  match source with
  | .null => .null
  | v => .str (pySlice (pyStrOf v) start (start + length))

/-- One argument of `function_pool.join_parts`: a callable part
(`p(blob)`) or a literal part (`str(p)`). -/
inductive JPart where
  | step : Step Doc Value → JPart
  | lit : Value → JPart

/-- One generator item of `join_parts`: a callable part is applied to
the blob — `"".join` then requires the result to be a `str`, and raises
`TypeError` otherwise (in particular on `None`); a literal part is
stringified with `str(p)` (so a literal `None` becomes `"None"`). -/
def joinPartsItem (blob : Doc) : JPart → Except EvalErr String
  | .step s => do
      match ← s blob with
      | .str t => .ok t
      | _ => .error "TypeError: sequence item is not a str instance"
  | .lit v => .ok (pyStrOf v)

/-- `function_pool.join_parts(*parts)`: `"".join` of the items. -/
def join_parts (parts : List JPart) : Step Doc Value :=
  fun blob => do
    let items ← parts.mapM (joinPartsItem blob)
    .ok (.str (String.join items))

/-- `jsonlogic_operations.JoinPartsOperator.evaluate` on
already-evaluated argument values: `None` contributes `""`, a string
contributes itself, anything else is stringified; then concatenate. -/
def joinPartsOperatorItem : Value → String
  | .null => ""
  | .str s => s
  | v => pyStrOf v

/-- The JSONLogic `JOIN_PARTS` operator body. -/
def joinPartsOperatorEval (args : List Value) : Value :=
  .str (String.join (args.map joinPartsOperatorItem))

/-- `function_pool.GST_DETAILS_ALL` loop body for one record: non-dict
records and records whose `gst_number` is not a string of width ≥ 12
are skipped; otherwise split into the 2-char state code and the 10-char
PAN segment, with the state name looked up in the static table
(unknown code → `""`). -/
def gstProcessRec (table : List (String × String)) (rec : Value) :
    Option Value :=
  match rec with
  | .obj fs =>
      match dget fs "gst_number" with
      | some (.str gst) =>
          if 12 ≤ gst.length then
            some (.obj
              [("gst_number", .str gst),
               ("pan_number", .str (pySlice gst 2 12)),
               ("state_name", .str ((sget table (pySlice gst 0 2)).getD ""))])
          else none
      | _ => none
  | _ => none

/-- `GST_DETAILS_ALL`'s `_impl` applied to a list value: if the first
element is itself a list, one level of nesting is unwrapped (`records =
records[0]`); then the loop over the records collects the processed
ones in order.  A `None` input raises (`for rec in None`); a string or
dict input iterates over non-dict items and yields `[]`; a number is
not iterable and raises. -/
def gstDetailsAllImpl (table : List (String × String)) (records : Value) :
    Except EvalErr (List Value) :=
  match records with
  | .arr rs =>
      match rs with
      | (.arr inner) :: _ => .ok (inner.filterMap (gstProcessRec table))
      | _ => .ok (rs.filterMap (gstProcessRec table))
  | .str _ => .ok []
  | .obj _ => .ok []
  | _ => .error "TypeError: object is not iterable"

/-- `jsonlogic_operations.GstDetailsAllOperator.evaluate` on an
already-evaluated records argument: a falsy or non-list value yields
`[]`; otherwise the same unwrap-then-loop as `GST_DETAILS_ALL`. -/
def gstDetailsAllOperatorEval (table : List (String × String))
    (records : Value) : List Value :=
  match records with
  | .arr [] => []
  | .arr ((.arr inner) :: _) => inner.filterMap (gstProcessRec table)
  | .arr rs => rs.filterMap (gstProcessRec table)
  | _ => []

/-! ## Field-binding layer (`src/custom_basemodel.py`) -/

/-- One `model_fields` entry of a `TransformBaseModel`: the field name,
the optional bound transform `Step`, the optional `post_transform`
hook, and the optional declared default. -/
structure FieldBinding where
  name : String
  transform : Option (Step Doc Value)
  postTransform : Option (Value → Except EvalErr Value)
  default : Option Value

/-- The meaningfulness test of `_apply_transforms`:
`value is not None and value != "" and
 (not isinstance(value, (list, dict)) or value)`.
`None` fails the first conjunct; the empty string fails the second
(cross-type `==` with `""` is `False` for every non-string); an empty
list or dict fails the truthiness disjunct of the third. -/
def meaningful : Value → Bool
  | .null => false
  | .str s => !(s == "")
  | .arr xs => !xs.isEmpty
  | .obj fs => !fs.isEmpty
  | _ => true

/-- `value = transform_step(data)` followed by the optional
`value = post_fn(value)`. -/
def effectiveValue (t : Step Doc Value)
    (post : Option (Value → Except EvalErr Value)) (data : Doc) :
    Except EvalErr Value := do
  let v ← t data
  match post with
  | none => .ok v
  | some p => p v

/-- The error `_apply_transforms` re-raises: a `ValidationError` titled
with the failing field name, wrapping the exception message. -/
structure TransformError where
  fieldName : String
  msg : EvalErr
deriving DecidableEq

/-- The `for field_name, field_info in cls.model_fields.items()` loop of
`_apply_transforms`: each transform is evaluated against the *original*
`data`; a meaningful result overwrites `transformed[field_name]`; a
non-meaningful result leaves `transformed` untouched; a raised
exception aborts the whole loop as a `ValidationError` naming the
field. -/
def applyTransformsGo (data : Doc) :
    List FieldBinding → Doc → Except TransformError Doc
  | [], transformed => .ok transformed
  | f :: rest, transformed =>
      match f.transform with
      | none => applyTransformsGo data rest transformed
      | some t =>
          match effectiveValue t f.postTransform data with
          | .error e => .error ⟨f.name, e⟩
          | .ok v =>
              applyTransformsGo data rest
                (if meaningful v then dset transformed f.name v
                 else transformed)

/-- `TransformBaseModel._apply_transforms`: start from a copy of the
raw payload and run the loop.  The returned dict is the
`TransformResult` handed to the downstream (pydantic) validation. -/
def applyTransforms (fields : List FieldBinding) (data : Doc) :
    Except TransformError Doc :=
  applyTransformsGo data fields data

/-- Models the downstream pydantic field assembly on the transformed
dict: a present key is used as-is, an absent key falls back to the
declared default, and an absent key with no default is a missing-field
validation error. -/
def finalizeFields (transformed : Doc) :
    List FieldBinding → Except TransformError Doc
  | [] => .ok []
  | f :: rest =>
      match dget transformed f.name with
      | some v => (finalizeFields transformed rest).map ((f.name, v) :: ·)
      | none =>
          match f.default with
          | some d =>
              (finalizeFields transformed rest).map ((f.name, d) :: ·)
          | none => .error ⟨f.name, "Field required"⟩

/-- Model construction end to end: `_apply_transforms` then the
per-field default/required assembly. -/
def buildModel (fields : List FieldBinding) (data : Doc) :
    Except TransformError Doc := do
  let transformed ← applyTransforms fields data
  finalizeFields transformed fields

/-! ## Helper lemmas about the transform loop -/

theorem applyTransformsGo_not_mentioned (data : Doc)
    (fs : List FieldBinding) (k : String) :
    ∀ tr out, (∀ f ∈ fs, f.name ≠ k) →
      applyTransformsGo data fs tr = .ok out → dget out k = dget tr k := by
  induction fs with
  | nil =>
      intro tr out _ h
      simp only [applyTransformsGo] at h
      cases h
      rfl
  | cons f rest ih =>
      intro tr out hns h
      have hf : f.name ≠ k := hns f (List.mem_cons_self f rest)
      have hrest : ∀ g ∈ rest, g.name ≠ k :=
        fun g hg => hns g (List.mem_cons_of_mem f hg)
      simp only [applyTransformsGo] at h
      cases ht : f.transform with
      | none =>
          simp only [ht] at h
          exact ih tr out hrest h
      | some t =>
          simp only [ht] at h
          cases he : effectiveValue t f.postTransform data with
          | error e =>
              simp only [he] at h
              exact Except.noConfusion h
          | ok v =>
              simp only [he] at h
              by_cases hm : meaningful v = true
              · simp only [hm, if_true] at h
                have := ih (dset tr f.name v) out hrest h
                rw [this, dget_dset,
                  if_neg (show ¬k = f.name from fun h₁ => hf h₁.symm)]
              · rw [Bool.not_eq_true] at hm
                simp only [hm, Bool.false_eq_true, if_false] at h
                exact ih tr out hrest h

theorem applyTransformsGo_total (data : Doc) (fs : List FieldBinding) :
    ∀ tr,
      (∀ f ∈ fs, ∀ t, f.transform = some t →
        ∃ v, effectiveValue t f.postTransform data = .ok v) →
      ∃ out, applyTransformsGo data fs tr = .ok out := by
  induction fs with
  | nil => intro tr _; exact ⟨tr, rfl⟩
  | cons f rest ih =>
      intro tr hok
      have hrest : ∀ f₁ ∈ rest, ∀ t, f₁.transform = some t →
          ∃ v, effectiveValue t f₁.postTransform data = .ok v :=
        fun f₁ hf₁ => hok f₁ (List.mem_cons_of_mem f hf₁)
      simp only [applyTransformsGo]
      cases ht : f.transform with
      | none => exact ih tr hrest
      | some t =>
          obtain ⟨v, hv⟩ := hok f (List.mem_cons_self f rest) t ht
          simp only [hv]
          exact ih _ hrest

theorem applyTransformsGo_set (data : Doc) (f : FieldBinding)
    (t : Step Doc Value) (v : Value)
    (ht : f.transform = some t)
    (hv : effectiveValue t f.postTransform data = .ok v)
    (hm : meaningful v = true) :
    ∀ pre post tr out,
      (∀ g ∈ pre, g.name ≠ f.name) → (∀ g ∈ post, g.name ≠ f.name) →
      applyTransformsGo data (pre ++ f :: post) tr = .ok out →
      dget out f.name = some v := by
  intro pre
  induction pre with
  | nil =>
      intro post tr out _ hpost h
      simp only [List.nil_append, applyTransformsGo, ht, hv, hm,
        if_true] at h
      have := applyTransformsGo_not_mentioned data post f.name
        (dset tr f.name v) out hpost h
      rw [this, dget_dset, if_pos rfl]
  | cons g pre ih =>
      intro post tr out hpre hpost h
      have hpre' : ∀ g₁ ∈ pre, g₁.name ≠ f.name :=
        fun g₁ hg₁ => hpre g₁ (List.mem_cons_of_mem g hg₁)
      simp only [List.cons_append, applyTransformsGo] at h
      cases htg : g.transform with
      | none =>
          simp only [htg] at h
          exact ih post tr out hpre' hpost h
      | some tg =>
          simp only [htg] at h
          cases he : effectiveValue tg g.postTransform data with
          | error e =>
              simp only [he] at h
              exact Except.noConfusion h
          | ok w =>
              simp only [he] at h
              exact ih post _ out hpre' hpost h

theorem applyTransformsGo_keep (data : Doc) (f : FieldBinding)
    (t : Step Doc Value) (v : Value)
    (ht : f.transform = some t)
    (hv : effectiveValue t f.postTransform data = .ok v)
    (hm : meaningful v = false) :
    ∀ pre post tr out,
      (∀ g ∈ pre, g.name ≠ f.name) → (∀ g ∈ post, g.name ≠ f.name) →
      applyTransformsGo data (pre ++ f :: post) tr = .ok out →
      dget out f.name = dget tr f.name := by
  intro pre
  induction pre with
  | nil =>
      intro post tr out _ hpost h
      simp only [List.nil_append, applyTransformsGo, ht, hv, hm,
        Bool.false_eq_true, if_false] at h
      exact applyTransformsGo_not_mentioned data post f.name tr out hpost h
  | cons g pre ih =>
      intro post tr out hpre hpost h
      have hg : g.name ≠ f.name := hpre g (List.mem_cons_self g pre)
      have hpre' : ∀ g₁ ∈ pre, g₁.name ≠ f.name :=
        fun g₁ hg₁ => hpre g₁ (List.mem_cons_of_mem g hg₁)
      simp only [List.cons_append, applyTransformsGo] at h
      cases htg : g.transform with
      | none =>
          simp only [htg] at h
          exact ih post tr out hpre' hpost h
      | some tg =>
          simp only [htg] at h
          cases he : effectiveValue tg g.postTransform data with
          | error e =>
              simp only [he] at h
              exact Except.noConfusion h
          | ok w =>
              simp only [he] at h
              by_cases hmw : meaningful w = true
              · simp only [hmw, if_true] at h
                have := ih post (dset tr g.name w) out hpre' hpost h
                rw [this, dget_dset,
                  if_neg (show ¬f.name = g.name from fun h₁ => hg h₁.symm)]
              · rw [Bool.not_eq_true] at hmw
                simp only [hmw, Bool.false_eq_true, if_false] at h
                exact ih post tr out hpre' hpost h

theorem nodup_mem_split (fields : List FieldBinding) (f : FieldBinding)
    (hnd : (fields.map FieldBinding.name).Nodup) (hm : f ∈ fields) :
    ∃ pre post, fields = pre ++ f :: post ∧
      (∀ g ∈ pre, g.name ≠ f.name) ∧ (∀ g ∈ post, g.name ≠ f.name) := by
  induction fields with
  | nil => cases hm
  | cons g rest ih =>
      rw [List.map_cons, List.nodup_cons] at hnd
      obtain ⟨hnotin, hnd'⟩ := hnd
      rcases List.mem_cons.mp hm with heq | htail
      · subst heq
        refine ⟨[], rest, rfl, by simp, ?_⟩
        intro g₁ hg₁ he
        exact hnotin (he ▸ List.mem_map_of_mem FieldBinding.name hg₁)
      · obtain ⟨pre, post, heq, hpre, hpost⟩ := ih hnd' htail
        refine ⟨g :: pre, post, by rw [heq, List.cons_append], ?_, hpost⟩
        intro g₁ hg₁
        rcases List.mem_cons.mp hg₁ with heq₁ | hg₂
        · subst heq₁
          intro he
          exact hnotin (he ▸ List.mem_map_of_mem FieldBinding.name htail)
        · exact hpre g₁ hg₂

theorem finalizeFields_get (tr : Doc) (fields : List FieldBinding)
    (f : FieldBinding)
    (hnd : (fields.map FieldBinding.name).Nodup) (hm : f ∈ fields) :
    ∀ res, finalizeFields tr fields = .ok res →
      dget res f.name = (dget tr f.name).or f.default := by
  induction fields with
  | nil => cases hm
  | cons g rest ih =>
      rw [List.map_cons, List.nodup_cons] at hnd
      obtain ⟨hnotin, hnd'⟩ := hnd
      intro res h
      rcases List.mem_cons.mp hm with heq | htail
      · subst heq
        simp only [finalizeFields] at h
        cases hd : dget tr f.name with
        | some v =>
            simp only [hd] at h
            cases hrest : finalizeFields tr rest with
            | error e =>
                simp only [hrest, Except.map_error] at h
                exact Except.noConfusion h
            | ok res' =>
                simp only [hrest, Except.map_ok] at h
                cases h
                simp [dget, hd, Option.or]
        | none =>
            simp only [hd] at h
            cases hdf : f.default with
            | none =>
                simp only [hdf] at h
                exact Except.noConfusion h
            | some d =>
                simp only [hdf] at h
                cases hrest : finalizeFields tr rest with
                | error e =>
                simp only [hrest, Except.map_error] at h
                exact Except.noConfusion h
                | ok res' =>
                    simp only [hrest, Except.map_ok] at h
                    cases h
                    simp [dget, hd, hdf, Option.or]
      · have hgname : g.name ≠ f.name := by
          intro he
          exact hnotin (he ▸ List.mem_map_of_mem FieldBinding.name htail)
        simp only [finalizeFields] at h
        cases hd : dget tr g.name with
        | some v =>
            simp only [hd] at h
            cases hrest : finalizeFields tr rest with
            | error e =>
                simp only [hrest, Except.map_error] at h
                exact Except.noConfusion h
            | ok res' =>
                simp only [hrest, Except.map_ok] at h
                cases h
                have := ih hnd' htail res' hrest
                simpa [dget, hgname] using this
        | none =>
            simp only [hd] at h
            cases hdf : g.default with
            | none =>
                simp only [hdf] at h
                exact Except.noConfusion h
            | some d =>
                simp only [hdf] at h
                cases hrest : finalizeFields tr rest with
                | error e =>
                simp only [hrest, Except.map_error] at h
                exact Except.noConfusion h
                | ok res' =>
                    simp only [hrest, Except.map_ok] at h
                    cases h
                    have := ih hnd' htail res' hrest
                    simpa [dget, hgname] using this

/-! ## Slice and join lemmas -/

theorem take_min_length {α : Type} (l : List α) (m : Nat) :
    l.take (min m l.length) = l.take m := by
  rcases Nat.le_total m l.length with h | h
  · rw [Nat.min_eq_left h]
  · rw [Nat.min_eq_right h, List.take_length l, List.take_of_length_le h]

theorem pySlice_nat (s : String) (start length : Nat) :
    pySlice s (start : Int) ((start : Int) + (length : Int)) =
      (((s.toList).drop start).take length).asString := by
  have hn : s.length = s.toList.length := rfl
  simp only [pySlice, pySliceClamp]
  rw [if_neg (by omega), if_neg (by omega)]
  have h1 : (start : Int).toNat = start := Int.toNat_natCast start
  have h2 : ((start : Int) + (length : Int)).toNat = start + length := by
    omega
  rw [h1, h2]
  congr 1
  rw [hn]
  generalize s.toList = l
  rcases Nat.le_total start l.length with hle | hge
  · rw [Nat.min_eq_left hle]
    have hmin : min (start + length) l.length - start =
        min length (l.length - start) := by omega
    rw [hmin]
    have hdl : (l.drop start).length = l.length - start :=
      List.length_drop start l
    rw [← hdl, take_min_length]
  · rw [Nat.min_eq_right hge]
    have h3 : min (start + length) l.length = l.length := by omega
    rw [h3, Nat.sub_self, List.drop_length l, List.drop_of_length_le hge]
    simp

theorem substrApply_ne_null (a b : Int) (v : Value) (hv : v ≠ .null) :
    substrApply a b v = .str (pySlice (pyStrOf v) a (a + b)) := by
  cases v with
  | null => exact absurd rfl hv
  | bool b => rfl
  | int n => rfl
  | str s => rfl
  | arr xs => rfl
  | obj fs => rfl

theorem stringFoldl_append (l : List String) (acc : String) :
    l.foldl (· ++ ·) acc = acc ++ l.foldl (· ++ ·) "" := by
  induction l generalizing acc with
  | nil => simp
  | cons x xs ih =>
      simp only [List.foldl_cons]
      rw [ih (acc ++ x), ih ("" ++ x)]
      simp [String.append_assoc]

theorem stringJoin_cons (x : String) (l : List String) :
    String.join (x :: l) = x ++ String.join l := by
  show (x :: l).foldl (· ++ ·) "" = x ++ l.foldl (· ++ ·) ""
  rw [List.foldl_cons, stringFoldl_append]
  simp

theorem stringJoin_append (a b : List String) :
    String.join (a ++ b) = String.join a ++ String.join b := by
  induction a with
  | nil => simp [String.join]
  | cons x xs ih =>
      rw [List.cons_append, stringJoin_cons, stringJoin_cons, ih,
        String.append_assoc]

/-! ## Claims -/

/-- C3: composition via the pipeline operator equals nested
application: for steps `f` and `g`, whenever `f x` evaluates to `y`,
`(f | g) x = g y`; and the nested-call surface forms of `CAPITALIZE`
and `SUBSTR` evaluate identically to their pipeline forms on every
document. -/
theorem C3_pipeline_eq_nested :
    (∀ (α β γ : Type) (f : Step α β) (g : Step β γ) (x : α) (y : β),
      f x = .ok y → Step.pipe f g x = g y) ∧
    (∀ (source : Step Doc Value) (blob : Doc),
      Step.pipe source CAPITALIZE blob = CAPITALIZEnested source blob) ∧
    (∀ (start length : Int) (source : Step Doc Value) (blob : Doc),
      Step.pipe source (SUBSTR start length) blob =
        SUBSTRnested start length source blob) := by
  refine ⟨?_, ?_, ?_⟩
  · intro α β γ f g x y h
    simp only [Step.pipe, h]
    rfl
  · intro source blob
    simp only [Step.pipe, CAPITALIZEnested]
    cases source blob <;> rfl
  · intro start length source blob
    simp only [Step.pipe, SUBSTRnested]
    cases source blob <;> rfl

/-- Witness for C3 at a concrete step pair and input. -/
theorem C3_pipeline_eq_nested_witness :
    ((fun v => Except.ok v) : Step Value Value) (Value.str "ab") =
      Except.ok (Value.str "ab") ∧
    Step.pipe ((fun v => Except.ok v) : Step Value Value) CAPITALIZE
      (Value.str "ab") = CAPITALIZE (Value.str "ab") :=
  ⟨rfl, C3_pipeline_eq_nested.1 Value Value Value _ CAPITALIZE
    (Value.str "ab") (Value.str "ab") rfl⟩

/-- C4: the path resolver collapses by match arity exactly: zero
matches yield `null`, one match yields the matched value itself, two or
more matches yield the ordered list of matched values. -/
theorem C4_path_arity_collapse (p : PathStep) (d : Value) :
    (pathFind p.compiled d = [] → p.resolve d = Value.null) ∧
    (∀ v, pathFind p.compiled d = [v] → p.resolve d = v) ∧
    (2 ≤ (pathFind p.compiled d).length →
      p.resolve d = Value.arr (pathFind p.compiled d)) := by
  unfold PathStep.resolve
  refine ⟨fun h => by rw [h]; rfl, fun v h => by rw [h]; rfl, fun h => ?_⟩
  rcases hms : pathFind p.compiled d with _ | ⟨v, _ | ⟨w, tl⟩⟩
  · rw [hms] at h; simp at h
  · rw [hms] at h; simp at h
  · rfl

/-- Witness for C4 on a document with two `$..x` matches. -/
theorem C4_path_arity_collapse_witness :
    2 ≤ (pathFind [Seg.recur "x"]
      (Value.obj [("a", Value.obj [("x", Value.int 1)]),
                  ("b", Value.obj [("x", Value.int 2)])])).length ∧
    PathStep.resolve ⟨"$..x", [Seg.recur "x"]⟩
      (Value.obj [("a", Value.obj [("x", Value.int 1)]),
                  ("b", Value.obj [("x", Value.int 2)])]) =
      Value.arr [Value.int 1, Value.int 2] :=
  ⟨by decide,
   (C4_path_arity_collapse ⟨"$..x", [Seg.recur "x"]⟩
      (Value.obj [("a", Value.obj [("x", Value.int 1)]),
                  ("b", Value.obj [("x", Value.int 2)])])).2.2 (by decide)⟩

/-- C5 counterexample: the step-style `join_parts` of
`function_pool.py` does *not* turn a null part into the empty string:
the literal argument list `("A", None, "B")` produces `"ANoneB"`
(Python `str(None)`), not `"AB"`. -/
theorem C5_join_null_counterexample :
    join_parts [JPart.lit (Value.str "A"), JPart.lit Value.null,
      JPart.lit (Value.str "B")] [] = Except.ok (Value.str "ANoneB") ∧
    Value.str "ANoneB" ≠ Value.str "AB" :=
  ⟨rfl, by simp⟩

/-- C5 (amended): the JSONLogic `JOIN_PARTS` operator concatenates
all parts in order and a null part contributes the empty string, so
`JOIN_PARTS("A", null, "B") = "AB"` and deleting a null part never
changes the result; the step-style `join_parts` of `function_pool.py`
instead renders a literal null as `"None"` and raises a `TypeError`
when a callable part yields null. -/
theorem C5_join_parts_amended :
    joinPartsOperatorEval [Value.str "A", Value.null, Value.str "B"] =
      Value.str "AB" ∧
    (∀ xs ys : List Value,
      joinPartsOperatorEval (xs ++ Value.null :: ys) =
        joinPartsOperatorEval (xs ++ ys)) ∧
    join_parts [JPart.lit (Value.str "A"), JPart.lit Value.null,
      JPart.lit (Value.str "B")] [] = Except.ok (Value.str "ANoneB") ∧
    join_parts [JPart.step (fun _ => Except.ok Value.null)] [] =
      Except.error "TypeError: sequence item is not a str instance" := by
  refine ⟨rfl, ?_, rfl, rfl⟩
  intro xs ys
  simp only [joinPartsOperatorEval, List.map_append, List.map_cons,
    joinPartsOperatorItem]
  rw [stringJoin_append, stringJoin_cons, stringJoin_append]
  simp

/-- C7: `SUBSTR(start, length, v)` maps null to null, otherwise
stringifies `v` and takes the window clamped to the available length
(never raising, possibly empty); `SUBSTR(0,10,"ab") = "ab"`; the
JSONLogic `SUBSTR` operator computes the same function. -/
theorem C7_substr_clamped (start length : Nat) (v : Value)
    (hv : v ≠ Value.null) :
    substrApply (start : Int) (length : Int) Value.null = Value.null ∧
    substrApply (start : Int) (length : Int) v =
      Value.str ((((pyStrOf v).toList).drop start).take length).asString ∧
    substrApply 0 10 (Value.str "ab") = Value.str "ab" ∧
    (∀ (a b : Int) (u : Value), substrOperatorEval a b u =
      substrApply a b u) := by
  refine ⟨rfl, ?_, rfl, ?_⟩
  · rw [substrApply_ne_null _ _ v hv, pySlice_nat]
  · intro a b u
    cases u <;> rfl

/-- Witness for C7 on a short string: `SUBSTR(1, 10, "ab") = "b"`. -/
theorem C7_substr_clamped_witness :
    Value.str "ab" ≠ Value.null ∧
    substrApply 1 10 (Value.str "ab") = Value.str "b" :=
  ⟨by simp, (C7_substr_clamped 1 10 (Value.str "ab") (by simp)).2.1⟩

/-- C6 counterexample: the JSONLogic `JSONPATH` operator parses its
query string during `evaluate`: the malformed query `"$."` is rejected
by the path parser, yet constructing the rule value succeeds (it is
plain data), and the path-syntax error is raised at evaluation time,
once a document is supplied — contradicting "evaluation against a
document never raises a path-syntax error". -/
theorem C6_path_syntax_counterexample :
    JSONPATH "$." =
      Value.obj [("JSONPATH", Value.arr [Value.str "$."])] ∧
    parsePath "$." = Except.error "empty field name" ∧
    jsonPathOperatorEval "$." (Value.obj []) =
      Except.error "empty field name" :=
  ⟨rfl, rfl, rfl⟩

/-- C6 (amended): for the step-engine `Path`, a malformed query is a
construction-time error: `PathStep.build` fails exactly on the query
strings the parser rejects, before any document is supplied, and a
successfully built `PathStep` evaluates as the total collapse of the
match list, with no path-syntax error possible at evaluation time.  The
JSONLogic `JSONPATH` operator instead parses its query during
`evaluate`, so the same malformed query surfaces as an evaluation-time
error. -/
theorem C6_path_syntax_build_time (q : String) :
    (∀ e, parsePath q = .error e → PathStep.build q = .error e) ∧
    (∀ c, parsePath q = .ok c → PathStep.build q = .ok ⟨q, c⟩ ∧
      ∀ d, PathStep.resolve ⟨q, c⟩ d = collapseMatches (pathFind c d)) ∧
    (∀ e d, parsePath q = .error e →
      jsonPathOperatorEval q d = .error e) := by
  refine ⟨?_, ?_, ?_⟩
  · intro e h
    simp only [PathStep.build, h]
    rfl
  · intro c h
    exact ⟨by simp only [PathStep.build, h]; rfl, fun d => rfl⟩
  · intro e d h
    simp only [jsonPathOperatorEval, h]
    rfl

/-- Witness for C6 (amended) at the malformed query `"$."`. -/
theorem C6_path_syntax_build_time_witness :
    parsePath "$." = Except.error "empty field name" ∧
    PathStep.build "$." = Except.error "empty field name" :=
  ⟨rfl, (C6_path_syntax_build_time "$.").1 "empty field name" rfl⟩

/-- C8: the code-lookup-all operator: a pre-flattened record list is
used as is and a singleton-wrapped one is unwrapped one level; every
record whose identifier string reaches width 12 yields
`{gst_number, pan_number, state_name}` with the leading 2-character
code segment, the following 10-character payload segment, and the name
from the static table (unknown code → empty name, not an error);
records with shorter identifiers are skipped; the JSONLogic operator
variant computes the same list. -/
theorem C8_code_lookup_all (table : List (String × String))
    (records flat : List Value)
    (hshape : (records = flat ∧
        ∀ inner, flat.head? ≠ some (Value.arr inner)) ∨
      records = [Value.arr flat]) :
    gstDetailsAllImpl table (Value.arr records) =
      .ok (flat.filterMap (gstProcessRec table)) ∧
    (∀ fs gst, dget fs "gst_number" = some (Value.str gst) →
      (12 ≤ gst.length →
        gstProcessRec table (Value.obj fs) = some (Value.obj
          [("gst_number", Value.str gst),
           ("pan_number",
            Value.str (((gst.toList.drop 2).take 10).asString)),
           ("state_name",
            Value.str ((sget table ((gst.toList.take 2).asString)).getD
              ""))])) ∧
      (gst.length < 12 → gstProcessRec table (Value.obj fs) = none)) ∧
    (∀ rs : List Value, gstDetailsAllImpl table (Value.arr rs) =
      .ok (gstDetailsAllOperatorEval table (Value.arr rs))) := by
  refine ⟨?_, ?_, ?_⟩
  · rcases hshape with ⟨heq, hhead⟩ | heq
    · rw [heq]
      rcases flat with _ | ⟨x, xs⟩
      · rfl
      · cases x with
        | arr inner => exact absurd rfl (hhead inner)
        | null => rfl
        | bool b => rfl
        | int n => rfl
        | str s => rfl
        | obj fs => rfl
    · rw [heq]
      rfl
  · intro fs gst hg
    constructor
    · intro hlen
      have e1 : pySlice gst 2 12 =
          ((gst.toList.drop 2).take 10).asString := by
        have h := pySlice_nat gst 2 10
        norm_num at h
        exact h
      have e2 : pySlice gst 0 2 = (gst.toList.take 2).asString := by
        have h := pySlice_nat gst 0 2
        norm_num at h
        exact h
      simp only [gstProcessRec, hg, if_pos hlen, e1, e2]
    · intro hlen
      have hn : ¬ 12 ≤ gst.length := by omega
      simp only [gstProcessRec, hg, if_neg hn]
  · intro rs
    cases rs with
    | nil => rfl
    | cons x xs =>
        cases x with
        | arr inner => rfl
        | null => rfl
        | bool b => rfl
        | int n => rfl
        | str s => rfl
        | obj fs => rfl

/-- Witness for C8 on the spec's own example: identifier
`"29ABCDE1234F1Z5"` with table `{"29": "Karnataka"}`. -/
theorem C8_code_lookup_all_witness :
    gstDetailsAllImpl [("29", "Karnataka")]
      (Value.arr [Value.obj [("gst_number",
        Value.str "29ABCDE1234F1Z5")]]) =
      Except.ok [Value.obj
        [("gst_number", Value.str "29ABCDE1234F1Z5"),
         ("pan_number", Value.str "ABCDE1234F"),
         ("state_name", Value.str "Karnataka")]] ∧
    gstProcessRec [("29", "Karnataka")]
      (Value.obj [("gst_number", Value.str "29ABC")]) = none :=
  ⟨(C8_code_lookup_all [("29", "Karnataka")]
      [Value.obj [("gst_number", Value.str "29ABCDE1234F1Z5")]]
      [Value.obj [("gst_number", Value.str "29ABCDE1234F1Z5")]]
      (Or.inl ⟨rfl, by simp⟩)).1,
   rfl⟩

/-- Aborting run of the loop: every binding before `f` evaluates
successfully, `f`'s transform raises, and the whole loop re-raises the
`ValidationError` naming `f`. -/
theorem applyTransformsGo_abort (data : Doc) (f : FieldBinding)
    (t : Step Doc Value) (e : EvalErr)
    (ht : f.transform = some t)
    (he : effectiveValue t f.postTransform data = .error e) :
    ∀ pre post tr,
      (∀ g ∈ pre, ∀ tg, g.transform = some tg →
        ∃ w, effectiveValue tg g.postTransform data = .ok w) →
      applyTransformsGo data (pre ++ f :: post) tr =
        .error ⟨f.name, e⟩ := by
  intro pre
  induction pre with
  | nil =>
      intro post tr _
      simp only [List.nil_append, applyTransformsGo, ht, he]
  | cons g pre ih =>
      intro post tr hpre
      have hpre' : ∀ g₁ ∈ pre, ∀ tg, g₁.transform = some tg →
          ∃ w, effectiveValue tg g₁.postTransform data = .ok w :=
        fun g₁ hg₁ => hpre g₁ (List.mem_cons_of_mem g hg₁)
      simp only [List.cons_append, applyTransformsGo]
      cases htg : g.transform with
      | none => exact ih post tr hpre'
      | some tg =>
          obtain ⟨w, hw⟩ := hpre g (List.mem_cons_self g pre) tg htg
          simp only [hw]
          exact ih post _ hpre'

/-- Example binding whose transform is a computed meaningful string. -/
def cbComputed : FieldBinding :=
  ⟨"name", some (fun _ => Except.ok (Value.str "COMPUTED")), none, none⟩

/-- Example binding whose transform raises during evaluation. -/
def cbRaises : FieldBinding :=
  ⟨"a", some (fun _ => Except.error "boom"), none, none⟩

/-- Example binding whose transform evaluates normally. -/
def cbFine : FieldBinding :=
  ⟨"b", some (fun _ => Except.ok (Value.str "x")), none, none⟩

/-- Example binding with a declared default whose transform yields
null. -/
def cbDefaulted : FieldBinding :=
  ⟨"country", some (fun _ => Except.ok Value.null), none,
   some (Value.str "Unknown")⟩

/-- Example binding whose transform yields the number `0`. -/
def cbZero : FieldBinding :=
  ⟨"score", some (fun _ => Except.ok (Value.int 0)), none,
   some (Value.int 7)⟩

/-- C1: when a field's bound transform evaluates to a meaningful
value `V` while the raw payload supplies a value `R` under the same
field name, the assembled `TransformResult` binds the field to `V`,
not `R`. -/
theorem C1_transform_overrides_raw (fields : List FieldBinding)
    (data out : Doc) (f : FieldBinding) (t : Step Doc Value) (v r : Value)
    (hnd : (fields.map FieldBinding.name).Nodup) (hf : f ∈ fields)
    (ht : f.transform = some t)
    (hv : effectiveValue t f.postTransform data = .ok v)
    (hm : meaningful v = true)
    (hr : dget data f.name = some r)
    (hok : applyTransforms fields data = .ok out) :
    dget out f.name = some v ∧
    (r ≠ v → dget out f.name ≠ some r) := by
  obtain ⟨pre, post, heq, hpre, hpost⟩ := nodup_mem_split fields f hnd hf
  subst heq
  have hset := applyTransformsGo_set data f t v ht hv hm pre post data out
    hpre hpost hok
  exact ⟨hset, fun hrv hc =>
    hrv (Option.some.inj (hset.symm.trans hc)).symm⟩

/-- Witness for C1: the transform's `"COMPUTED"` overrides the raw
`"RAW"`. -/
theorem C1_transform_overrides_raw_witness :
    applyTransforms [cbComputed] [("name", Value.str "RAW")] =
      Except.ok [("name", Value.str "COMPUTED")] ∧
    (dget [("name", Value.str "COMPUTED")] "name" =
      some (Value.str "COMPUTED") ∧
    (Value.str "RAW" ≠ Value.str "COMPUTED" →
      dget [("name", Value.str "COMPUTED")] "name" ≠
        some (Value.str "RAW"))) :=
  ⟨rfl, C1_transform_overrides_raw [cbComputed]
    [("name", Value.str "RAW")] [("name", Value.str "COMPUTED")]
    cbComputed _ (Value.str "COMPUTED") (Value.str "RAW")
    (by simp [cbComputed]) (by simp) rfl rfl rfl rfl rfl⟩

/-- C2 counterexample: an exception raised while evaluating one
field's transform is *not* caught per field: with binding `"a"` raising
and binding `"b"` evaluating normally, `_apply_transforms` re-raises a
`ValidationError` naming `"a"` and aborts the whole batch — no
transformed dict is produced and field `"b"` is never bound. -/
theorem C2_eval_error_counterexample :
    applyTransforms [cbRaises, cbFine] [] =
      Except.error ⟨"a", "boom"⟩ :=
  rfl

/-- C2 (amended): when an operator raises during evaluation of one
field's bound transform, `_apply_transforms` catches the exception only
to re-raise it as a `ValidationError` naming that field: the whole
binding set is aborted, and no later field of the batch is computed —
the field does not degrade to "no value". -/
theorem C2_eval_error_aborts (data : Doc) (pre post : List FieldBinding)
    (f : FieldBinding) (t : Step Doc Value) (e : EvalErr)
    (hpre : ∀ g ∈ pre, ∀ tg, g.transform = some tg →
      ∃ w, effectiveValue tg g.postTransform data = .ok w)
    (ht : f.transform = some t)
    (he : effectiveValue t f.postTransform data = .error e) :
    applyTransforms (pre ++ f :: post) data = .error ⟨f.name, e⟩ :=
  applyTransformsGo_abort data f t e ht he pre post data hpre

/-- Witness for C2 (amended): binding `"b"` evaluates fine first, then
binding `"a"` raises, and the whole run errors naming `"a"`. -/
theorem C2_eval_error_aborts_witness :
    applyTransforms [cbFine, cbRaises] [] =
      Except.error ⟨"a", "boom"⟩ :=
  C2_eval_error_aborts [] [cbFine] [] cbRaises
    (fun _ => Except.error "boom") "boom"
    (by
      intro g hg tg htg
      rw [List.mem_singleton] at hg
      subst hg
      simp only [cbFine] at htg
      cases htg
      exact ⟨Value.str "x", rfl⟩)
    rfl rfl

/-- C9: when a field's bound transform yields no meaningful value
and the raw payload has no value under the field name, the field is
absent from the `TransformResult` (not present with null), and the
downstream assembly gives it the declared default when one exists. -/
theorem C9_default_when_no_value (fields : List FieldBinding)
    (data out : Doc) (f : FieldBinding) (t : Step Doc Value) (v : Value)
    (hnd : (fields.map FieldBinding.name).Nodup) (hf : f ∈ fields)
    (ht : f.transform = some t)
    (hv : effectiveValue t f.postTransform data = .ok v)
    (hm : meaningful v = false)
    (hraw : dget data f.name = none)
    (hok : applyTransforms fields data = .ok out) :
    dget out f.name = none ∧
    (∀ d res, f.default = some d → finalizeFields out fields = .ok res →
      dget res f.name = some d) := by
  obtain ⟨pre, post, heq, hpre, hpost⟩ := nodup_mem_split fields f hnd hf
  subst heq
  have hnone : dget out f.name = none :=
    (applyTransformsGo_keep data f t v ht hv hm pre post data out hpre
      hpost hok).trans hraw
  refine ⟨hnone, ?_⟩
  intro d res hd hres
  have hget := finalizeFields_get out (pre ++ f :: post) f hnd hf res hres
  rw [hnone, hd] at hget
  exact hget

/-- Witness for C9: transform yields null, no raw value, default
`"Unknown"` is applied downstream. -/
theorem C9_default_when_no_value_witness :
    applyTransforms [cbDefaulted] [] = Except.ok [] ∧
    (dget [] "country" = (none : Option Value) ∧
     dget [("country", Value.str "Unknown")] "country" =
       some (Value.str "Unknown")) := by
  have h := C9_default_when_no_value [cbDefaulted] [] [] cbDefaulted
    (fun _ => Except.ok Value.null) Value.null
    (by simp [cbDefaulted]) (by simp) rfl rfl rfl rfl rfl
  exact ⟨rfl, h.1, h.2 (Value.str "Unknown")
    [("country", Value.str "Unknown")] rfl rfl⟩

/-- C10: the scalars `0` and `False` count as meaningful in the
field-binding precedence check — a transform evaluating to them
overrides the raw payload and never falls through to the default; the
only values treated as "no value" are null, the empty string, the
empty list and the empty dict. -/
theorem C10_zero_false_meaningful (fields : List FieldBinding)
    (data out : Doc) (f : FieldBinding) (t : Step Doc Value) (v : Value)
    (hnd : (fields.map FieldBinding.name).Nodup) (hf : f ∈ fields)
    (ht : f.transform = some t)
    (hv : effectiveValue t f.postTransform data = .ok v)
    (hzf : v = Value.int 0 ∨ v = Value.bool false)
    (hok : applyTransforms fields data = .ok out) :
    meaningful (Value.int 0) = true ∧
    meaningful (Value.bool false) = true ∧
    (∀ u, meaningful u = false ↔
      (u = Value.null ∨ u = Value.str "" ∨ u = Value.arr [] ∨
       u = Value.obj [])) ∧
    dget out f.name = some v := by
  refine ⟨rfl, rfl, ?_, ?_⟩
  · intro u
    cases u with
    | null => simp [meaningful]
    | bool b => simp [meaningful]
    | int n => simp [meaningful]
    | str s => simp [meaningful]
    | arr xs => simp [meaningful]
    | obj fs => simp [meaningful]
  · have hm : meaningful v = true := by
      rcases hzf with rfl | rfl <;> rfl
    obtain ⟨pre, post, heq, hpre, hpost⟩ := nodup_mem_split fields f hnd hf
    subst heq
    exact applyTransformsGo_set data f t v ht hv hm pre post data out
      hpre hpost hok

/-- Witness for C10: a transform yielding `0` overrides the raw `99`
and does not fall through to the default `7`. -/
theorem C10_zero_false_meaningful_witness :
    applyTransforms [cbZero] [("score", Value.int 99)] =
      Except.ok [("score", Value.int 0)] ∧
    dget [("score", Value.int 0)] "score" = some (Value.int 0) :=
  ⟨rfl, (C10_zero_false_meaningful [cbZero] [("score", Value.int 99)]
    [("score", Value.int 0)] cbZero _ (Value.int 0)
    (by simp [cbZero]) (by simp) rfl rfl (Or.inl rfl) rfl).2.2.2⟩
